import Mathlib

/-!
# Verification of the HabitTool execution tracking and archival engine

Shallow embedding of `src/main.rs` from reubencornel/HabitTool.
Rust `i8` day-values become `Int`; the `u8` archive accumulator becomes
`Nat` with explicit `% 256` where the source's shifts may overflow;
`Vec` becomes `List`; the fallible collection update returns `Except`.
-/

/-- WINDOW_SIZE: `const MAX_EXECUTIONS: usize = 49;` -/
def MAX_EXECUTIONS : Nat := 49

/-- The `HabitExecution` struct of `main.rs`. -/
structure HabitExecution where
  name : String
  executions : List Int
  manual_update : Bool
  archived_executions : List String
deriving DecidableEq

/-- `HabitExecution::new`. -/
def HabitExecution.new (name : String) : HabitExecution :=
  { name := name, executions := [], manual_update := false, archived_executions := [] }

/-- Modelled from the spec: the `base64_url` crate (an external collaborator,
not part of this repository's sources) encodes bytes with the URL-safe
base64 alphabet and no padding.  The alphabet. -/
def b64chars : List Char :=
  "ABCDEFGHIJKLMNOPQRSTUVWXYZabcdefghijklmnopqrstuvwxyz0123456789-_".toList

/-- Character for a 6-bit value. -/
def b64char (n : Nat) : Char := b64chars.getD n 'A'

/-- 6-bit value of an alphabet character (decoder side). -/
def b64val (c : Char) : Nat := b64chars.findIdx (fun x => x == c)

/-- Modelled from the spec: URL-safe base64, no padding — groups of 3 bytes
become 4 characters; a 1- or 2-byte remainder becomes 2 or 3 characters. -/
def b64encodeGo : List Nat → List Char
  | [] => []
  | [b0] => [b64char (b0 / 4), b64char (b0 % 4 * 16)]
  | [b0, b1] => [b64char (b0 / 4), b64char (b0 % 4 * 16 + b1 / 16), b64char (b1 % 16 * 4)]
  | b0 :: b1 :: b2 :: rest =>
      b64char (b0 / 4) :: b64char (b0 % 4 * 16 + b1 / 16) ::
      b64char (b1 % 16 * 4 + b2 / 64) :: b64char (b2 % 64) :: b64encodeGo rest

/-- Modelled from the spec: `base64_url::encode`. -/
def base64url_encode (bs : List Nat) : String := String.mk (b64encodeGo bs)

/-- Modelled from the spec: URL-safe base64 decoding (inverse direction),
used only to state the round-trip property. -/
def b64decodeGo : List Char → List Nat
  | [c0, c1] => [b64val c0 * 4 + b64val c1 / 16]
  | [c0, c1, c2] => [b64val c0 * 4 + b64val c1 / 16, b64val c1 % 16 * 16 + b64val c2 / 4]
  | c0 :: c1 :: c2 :: c3 :: rest =>
      (b64val c0 * 4 + b64val c1 / 16) :: (b64val c1 % 16 * 16 + b64val c2 / 4) ::
      (b64val c2 % 4 * 64 + b64val c3) :: b64decodeGo rest
  | _ => []

/-- Modelled from the spec: `base64_url::decode` on a padding-free token. -/
def base64url_decode (s : String) : List Nat := b64decodeGo s.toList

/-- One iteration of the `for (i, value) in old_executions.into_iter().enumerate()`
loop body of `archive_execution`: flush the accumulator byte at each group
boundary (`i != 0 && i % 8 == 0`), shift left one bit (`u8` wraps mod 256),
and set the low bit when the value equals 1. -/
def archiveStep (acc : List Nat × Nat) (iv : Nat × Int) : List Nat × Nat :=
  let arr := if iv.1 ≠ 0 ∧ iv.1 % 8 = 0 then acc.1 ++ [acc.2] else acc.1
  let b0 := if iv.1 ≠ 0 ∧ iv.1 % 8 = 0 then 0 else acc.2
  let b1 := b0 * 2 % 256
  let b2 := if iv.2 = 1 then b1 ||| 1 else b1
  (arr, b2)

/-- The whole loop of `archive_execution`: final pair (archive_array, byte_rep). -/
def archiveFold (w : List Int) : List Nat × Nat :=
  w.enum.foldl archiveStep ([], 0)

/-- The byte sequence `archive_array` of `archive_execution` after the loop and
the final `byte_rep = byte_rep << 7; archive_array.push(byte_rep);`. -/
def archive_bytes (w : List Int) : List Nat :=
  (archiveFold w).1 ++ [(archiveFold w).2 * 128 % 256]

/-- `archive_execution`: replace `executions` by an empty vector, pack the old
window into bytes, and push its base64url encoding onto `archived_executions`. -/
def archive_execution (habit : HabitExecution) : HabitExecution :=
  { habit with
      executions := [],
      archived_executions :=
        habit.archived_executions ++ [base64url_encode (archive_bytes habit.executions)] }

/-- `update_habit`: archive when the window is full, append the value unless the
last update was manual, then record the provenance of this update. -/
def update_habit (habit : HabitExecution) (value : Int) (manual_update : Bool) : HabitExecution :=
  let habit := if MAX_EXECUTIONS ≤ habit.executions.length then archive_execution habit else habit
  let habit :=
    if habit.manual_update = false then
      { habit with executions := habit.executions ++ [value] }
    else habit
  { habit with manual_update := manual_update }

/-- `update_execution`: find the first habit with the given name, update it and
return `Ok(name)`; otherwise leave the collection alone and return the error. -/
def update_execution (habits : List HabitExecution) (name : String) (value : Int)
    (manual_update : Bool) : List HabitExecution × Except String String :=
  match habits with
  | [] => ([], Except.error "Habit  not found")
  | habit :: rest =>
      if name = habit.name then (update_habit habit value manual_update :: rest, Except.ok name)
      else
        let r := update_execution rest name value manual_update
        (habit :: r.1, r.2)

/-- A sequence of updates applied to one record (for the window-length invariant). -/
def applyUpdates (habit : HabitExecution) (ops : List (Int × Bool)) : HabitExecution :=
  ops.foldl (fun h p => update_habit h p.1 p.2) habit

/-- Modelled from the spec: `ColorMapping::get_string_with_color` lives in the
`colorize` module, which is not among the provided sources; the spec treats the
renderer as an external collaborator and only the marker/color choice matters,
so we model it as the tuple of its arguments. -/
def get_string_with_color (s : String) (color : String) (pad : String) : String × String × String :=
  (s, color, pad)

/-- The stateful closure of `map_executions_to_display_chars`, iterated over the
range `0..49` with the `diplay_today` flag threaded through. -/
def displayGo (habit : HabitExecution) (x : Nat) (fuel : Nat) (diplay_today : Bool) :
    List (String × String × String) :=
  match fuel with
  | 0 => []
  | fuel + 1 =>
      if habit.executions.length ≤ x then
        if diplay_today = true ∧ habit.manual_update = false then
          get_string_with_color "T" "orange" "" :: displayGo habit (x + 1) fuel false
        else
          get_string_with_color "." "blue" "" :: displayGo habit (x + 1) fuel diplay_today
      else
        if habit.executions.getD x 0 = 1 then
          get_string_with_color "X" "green" "" :: displayGo habit (x + 1) fuel diplay_today
        else
          get_string_with_color "O" "red" "" :: displayGo habit (x + 1) fuel diplay_today

/-- `map_executions_to_display_chars`: 49 display symbols for one record. -/
def map_executions_to_display_chars (habit : HabitExecution) : List (String × String × String) :=
  displayGo habit 0 49 true

/-- One group's byte, following the spec's words: iterate the group's values in
order, left-shift the accumulator one bit per value, set the low bit exactly
when the value equals 1. -/
def group_byte (g : List Int) : Nat :=
  g.foldl (fun acc v => acc * 2 + (if v = 1 then 1 else 0)) 0

/-- The packed bitmap of a WINDOW_SIZE window, following the spec's words:
6 consecutive groups of 8 values plus 1 remaining value; the final partial
group is left-aligned by shifting its accumulator left by 8 minus the group's
size bits. -/
def spec_pack (w : List Int) : List Nat :=
  [group_byte (w.take 8),
   group_byte ((w.drop 8).take 8),
   group_byte ((w.drop 16).take 8),
   group_byte ((w.drop 24).take 8),
   group_byte ((w.drop 32).take 8),
   group_byte ((w.drop 40).take 8),
   group_byte (w.drop 48) <<< (8 - (w.drop 48).length)]

/-- The per-index display symbol the spec describes: done marker for a stored 1,
not-done marker for any other stored value, the today marker at the first index
past the window (only when the last update was not manual), unfilled markers
for the rest. -/
def displayExpected (habit : HabitExecution) (i : Nat) : String × String × String :=
  if i < habit.executions.length then
    (if habit.executions.getD i 0 = 1 then get_string_with_color "X" "green" ""
     else get_string_with_color "O" "red" "")
  else if habit.manual_update = false ∧ i = habit.executions.length then
    get_string_with_color "T" "orange" ""
  else get_string_with_color "." "blue" ""

/-- The 49-value window of the repository's own `archive_habit_execution` test. -/
def testWindow : List Int := [1, 1, -1, 0, 0, 0, 0, 1, 1] ++ List.replicate 38 0 ++ [1, 1]

theorem two_mul_lor_one (m : Nat) : 2 * m ||| 1 = 2 * m + 1 := by
  apply Nat.eq_of_testBit_eq
  intro i
  cases i with
  | zero => simp [Nat.testBit_zero]; omega
  | succ i =>
      have h1 : 2 * m / 2 = m := by omega
      have h2 : (2 * m + 1) / 2 = m := by omega
      rw [Nat.testBit_or, Nat.testBit_add_one, Nat.testBit_add_one, h1,
        Nat.testBit_add_one, h2]
      simp

theorem mod_lor_one (x : Nat) : x * 2 % 256 ||| 1 = x * 2 % 256 + 1 := by
  obtain ⟨m, hm⟩ : ∃ m, x * 2 % 256 = 2 * m := ⟨x * 2 % 256 / 2, by omega⟩
  rw [hm, two_mul_lor_one]

theorem archiveStep_push (i : Nat) (h0 : i ≠ 0) (h8 : i % 8 = 0) (s : List Nat × Nat) (v : Int) :
    archiveStep s (i, v) = (s.1 ++ [s.2], if v = 1 then 1 else 0) := by
  simp only [archiveStep, if_pos (And.intro h0 h8)]
  norm_num

theorem archiveStep_acc (i : Nat) (h : ¬(i ≠ 0 ∧ i % 8 = 0)) (s : List Nat × Nat) (v : Int) :
    archiveStep s (i, v) = (s.1, s.2 * 2 % 256 + (if v = 1 then 1 else 0)) := by
  simp only [archiveStep, if_neg h]
  congr 1
  split
  · rw [mod_lor_one]
  · omega

theorem foldl_enumFrom_cons (i : Nat) (v : Int) (l : List Int) (s : List Nat × Nat) :
    (List.enumFrom i (v :: l)).foldl archiveStep s =
    (List.enumFrom (i + 1) l).foldl archiveStep (archiveStep s (i, v)) := rfl

theorem bit_exists (v : Int) : ∃ e : Nat, (if v = 1 then (1 : Nat) else 0) = e ∧ e ≤ 1 :=
  ⟨_, rfl, by split <;> decide⟩

theorem enum_eq_enumFrom (l : List Int) : l.enum = List.enumFrom 0 l := rfl

theorem fold8_zero (g0 g1 g2 g3 g4 g5 g6 g7 : Int) (rest : List Int) (arr : List Nat) :
    (List.enumFrom 0 (g0 :: g1 :: g2 :: g3 :: g4 :: g5 :: g6 :: g7 :: rest)).foldl
      archiveStep (arr, 0) =
    (List.enumFrom 8 rest).foldl archiveStep
      (arr, group_byte [g0, g1, g2, g3, g4, g5, g6, g7]) := by
  rw [foldl_enumFrom_cons, archiveStep_acc 0 (by omega)]
  rw [foldl_enumFrom_cons, archiveStep_acc (0 + 1) (by omega)]
  rw [foldl_enumFrom_cons, archiveStep_acc (0 + 1 + 1) (by omega)]
  rw [foldl_enumFrom_cons, archiveStep_acc (0 + 1 + 1 + 1) (by omega)]
  rw [foldl_enumFrom_cons, archiveStep_acc (0 + 1 + 1 + 1 + 1) (by omega)]
  rw [foldl_enumFrom_cons, archiveStep_acc (0 + 1 + 1 + 1 + 1 + 1) (by omega)]
  rw [foldl_enumFrom_cons, archiveStep_acc (0 + 1 + 1 + 1 + 1 + 1 + 1) (by omega)]
  rw [foldl_enumFrom_cons, archiveStep_acc (0 + 1 + 1 + 1 + 1 + 1 + 1 + 1) (by omega)]
  have hidx : 0 + 1 + 1 + 1 + 1 + 1 + 1 + 1 + 1 = 8 := by omega
  rw [hidx]
  congr 1
  simp only [group_byte, List.foldl]
  obtain ⟨e0, he0, hle0⟩ := bit_exists g0
  obtain ⟨e1, he1, hle1⟩ := bit_exists g1
  obtain ⟨e2, he2, hle2⟩ := bit_exists g2
  obtain ⟨e3, he3, hle3⟩ := bit_exists g3
  obtain ⟨e4, he4, hle4⟩ := bit_exists g4
  obtain ⟨e5, he5, hle5⟩ := bit_exists g5
  obtain ⟨e6, he6, hle6⟩ := bit_exists g6
  obtain ⟨e7, he7, hle7⟩ := bit_exists g7
  rw [he0, he1, he2, he3, he4, he5, he6, he7]
  congr 1
  omega

theorem fold8 (i j : Nat) (hi0 : i ≠ 0) (hi8 : i % 8 = 0) (hj : j = i + 8)
    (g0 g1 g2 g3 g4 g5 g6 g7 : Int) (rest : List Int) (arr : List Nat) (b : Nat) :
    (List.enumFrom i (g0 :: g1 :: g2 :: g3 :: g4 :: g5 :: g6 :: g7 :: rest)).foldl
      archiveStep (arr, b) =
    (List.enumFrom j rest).foldl archiveStep
      (arr ++ [b], group_byte [g0, g1, g2, g3, g4, g5, g6, g7]) := by
  rw [foldl_enumFrom_cons, archiveStep_push i hi0 hi8]
  rw [foldl_enumFrom_cons, archiveStep_acc (i + 1) (by omega)]
  rw [foldl_enumFrom_cons, archiveStep_acc (i + 1 + 1) (by omega)]
  rw [foldl_enumFrom_cons, archiveStep_acc (i + 1 + 1 + 1) (by omega)]
  rw [foldl_enumFrom_cons, archiveStep_acc (i + 1 + 1 + 1 + 1) (by omega)]
  rw [foldl_enumFrom_cons, archiveStep_acc (i + 1 + 1 + 1 + 1 + 1) (by omega)]
  rw [foldl_enumFrom_cons, archiveStep_acc (i + 1 + 1 + 1 + 1 + 1 + 1) (by omega)]
  rw [foldl_enumFrom_cons, archiveStep_acc (i + 1 + 1 + 1 + 1 + 1 + 1 + 1) (by omega)]
  have hidx : i + 1 + 1 + 1 + 1 + 1 + 1 + 1 + 1 = j := by omega
  rw [hidx]
  congr 1
  simp only [group_byte, List.foldl]
  obtain ⟨e0, he0, hle0⟩ := bit_exists g0
  obtain ⟨e1, he1, hle1⟩ := bit_exists g1
  obtain ⟨e2, he2, hle2⟩ := bit_exists g2
  obtain ⟨e3, he3, hle3⟩ := bit_exists g3
  obtain ⟨e4, he4, hle4⟩ := bit_exists g4
  obtain ⟨e5, he5, hle5⟩ := bit_exists g5
  obtain ⟨e6, he6, hle6⟩ := bit_exists g6
  obtain ⟨e7, he7, hle7⟩ := bit_exists g7
  rw [he0, he1, he2, he3, he4, he5, he6, he7]
  congr 1
  omega

theorem archive_bytes_eq_spec_pack (w : List Int) (h : w.length = 49) :
    archive_bytes w = spec_pack w := by
  obtain ⟨a1, w, rfl⟩ := List.exists_of_length_succ w h
  replace h : w.length = 48 := by simpa using h
  obtain ⟨a2, w, rfl⟩ := List.exists_of_length_succ w h
  replace h : w.length = 47 := by simpa using h
  obtain ⟨a3, w, rfl⟩ := List.exists_of_length_succ w h
  replace h : w.length = 46 := by simpa using h
  obtain ⟨a4, w, rfl⟩ := List.exists_of_length_succ w h
  replace h : w.length = 45 := by simpa using h
  obtain ⟨a5, w, rfl⟩ := List.exists_of_length_succ w h
  replace h : w.length = 44 := by simpa using h
  obtain ⟨a6, w, rfl⟩ := List.exists_of_length_succ w h
  replace h : w.length = 43 := by simpa using h
  obtain ⟨a7, w, rfl⟩ := List.exists_of_length_succ w h
  replace h : w.length = 42 := by simpa using h
  obtain ⟨a8, w, rfl⟩ := List.exists_of_length_succ w h
  replace h : w.length = 41 := by simpa using h
  obtain ⟨a9, w, rfl⟩ := List.exists_of_length_succ w h
  replace h : w.length = 40 := by simpa using h
  obtain ⟨a10, w, rfl⟩ := List.exists_of_length_succ w h
  replace h : w.length = 39 := by simpa using h
  obtain ⟨a11, w, rfl⟩ := List.exists_of_length_succ w h
  replace h : w.length = 38 := by simpa using h
  obtain ⟨a12, w, rfl⟩ := List.exists_of_length_succ w h
  replace h : w.length = 37 := by simpa using h
  obtain ⟨a13, w, rfl⟩ := List.exists_of_length_succ w h
  replace h : w.length = 36 := by simpa using h
  obtain ⟨a14, w, rfl⟩ := List.exists_of_length_succ w h
  replace h : w.length = 35 := by simpa using h
  obtain ⟨a15, w, rfl⟩ := List.exists_of_length_succ w h
  replace h : w.length = 34 := by simpa using h
  obtain ⟨a16, w, rfl⟩ := List.exists_of_length_succ w h
  replace h : w.length = 33 := by simpa using h
  obtain ⟨a17, w, rfl⟩ := List.exists_of_length_succ w h
  replace h : w.length = 32 := by simpa using h
  obtain ⟨a18, w, rfl⟩ := List.exists_of_length_succ w h
  replace h : w.length = 31 := by simpa using h
  obtain ⟨a19, w, rfl⟩ := List.exists_of_length_succ w h
  replace h : w.length = 30 := by simpa using h
  obtain ⟨a20, w, rfl⟩ := List.exists_of_length_succ w h
  replace h : w.length = 29 := by simpa using h
  obtain ⟨a21, w, rfl⟩ := List.exists_of_length_succ w h
  replace h : w.length = 28 := by simpa using h
  obtain ⟨a22, w, rfl⟩ := List.exists_of_length_succ w h
  replace h : w.length = 27 := by simpa using h
  obtain ⟨a23, w, rfl⟩ := List.exists_of_length_succ w h
  replace h : w.length = 26 := by simpa using h
  obtain ⟨a24, w, rfl⟩ := List.exists_of_length_succ w h
  replace h : w.length = 25 := by simpa using h
  obtain ⟨a25, w, rfl⟩ := List.exists_of_length_succ w h
  replace h : w.length = 24 := by simpa using h
  obtain ⟨a26, w, rfl⟩ := List.exists_of_length_succ w h
  replace h : w.length = 23 := by simpa using h
  obtain ⟨a27, w, rfl⟩ := List.exists_of_length_succ w h
  replace h : w.length = 22 := by simpa using h
  obtain ⟨a28, w, rfl⟩ := List.exists_of_length_succ w h
  replace h : w.length = 21 := by simpa using h
  obtain ⟨a29, w, rfl⟩ := List.exists_of_length_succ w h
  replace h : w.length = 20 := by simpa using h
  obtain ⟨a30, w, rfl⟩ := List.exists_of_length_succ w h
  replace h : w.length = 19 := by simpa using h
  obtain ⟨a31, w, rfl⟩ := List.exists_of_length_succ w h
  replace h : w.length = 18 := by simpa using h
  obtain ⟨a32, w, rfl⟩ := List.exists_of_length_succ w h
  replace h : w.length = 17 := by simpa using h
  obtain ⟨a33, w, rfl⟩ := List.exists_of_length_succ w h
  replace h : w.length = 16 := by simpa using h
  obtain ⟨a34, w, rfl⟩ := List.exists_of_length_succ w h
  replace h : w.length = 15 := by simpa using h
  obtain ⟨a35, w, rfl⟩ := List.exists_of_length_succ w h
  replace h : w.length = 14 := by simpa using h
  obtain ⟨a36, w, rfl⟩ := List.exists_of_length_succ w h
  replace h : w.length = 13 := by simpa using h
  obtain ⟨a37, w, rfl⟩ := List.exists_of_length_succ w h
  replace h : w.length = 12 := by simpa using h
  obtain ⟨a38, w, rfl⟩ := List.exists_of_length_succ w h
  replace h : w.length = 11 := by simpa using h
  obtain ⟨a39, w, rfl⟩ := List.exists_of_length_succ w h
  replace h : w.length = 10 := by simpa using h
  obtain ⟨a40, w, rfl⟩ := List.exists_of_length_succ w h
  replace h : w.length = 9 := by simpa using h
  obtain ⟨a41, w, rfl⟩ := List.exists_of_length_succ w h
  replace h : w.length = 8 := by simpa using h
  obtain ⟨a42, w, rfl⟩ := List.exists_of_length_succ w h
  replace h : w.length = 7 := by simpa using h
  obtain ⟨a43, w, rfl⟩ := List.exists_of_length_succ w h
  replace h : w.length = 6 := by simpa using h
  obtain ⟨a44, w, rfl⟩ := List.exists_of_length_succ w h
  replace h : w.length = 5 := by simpa using h
  obtain ⟨a45, w, rfl⟩ := List.exists_of_length_succ w h
  replace h : w.length = 4 := by simpa using h
  obtain ⟨a46, w, rfl⟩ := List.exists_of_length_succ w h
  replace h : w.length = 3 := by simpa using h
  obtain ⟨a47, w, rfl⟩ := List.exists_of_length_succ w h
  replace h : w.length = 2 := by simpa using h
  obtain ⟨a48, w, rfl⟩ := List.exists_of_length_succ w h
  replace h : w.length = 1 := by simpa using h
  obtain ⟨a49, w, rfl⟩ := List.exists_of_length_succ w h
  replace h : w.length = 0 := by simpa using h
  rw [List.length_eq_zero] at h
  subst h
  simp only [archive_bytes, archiveFold]
  rw [enum_eq_enumFrom]
  rw [fold8_zero]
  rw [fold8 8 16 (by decide) (by decide) (by decide)]
  rw [fold8 16 24 (by decide) (by decide) (by decide)]
  rw [fold8 24 32 (by decide) (by decide) (by decide)]
  rw [fold8 32 40 (by decide) (by decide) (by decide)]
  rw [fold8 40 48 (by decide) (by decide) (by decide)]
  rw [foldl_enumFrom_cons, archiveStep_push 48 (by decide) (by decide)]
  simp only [List.enumFrom, List.foldl]
  have hs : spec_pack (a1 :: a2 :: a3 :: a4 :: a5 :: a6 :: a7 :: a8 :: a9 :: a10 :: a11 :: a12 :: a13 :: a14 :: a15 :: a16 :: a17 :: a18 :: a19 :: a20 :: a21 :: a22 :: a23 :: a24 :: a25 :: a26 :: a27 :: a28 :: a29 :: a30 :: a31 :: a32 :: a33 :: a34 :: a35 :: a36 :: a37 :: a38 :: a39 :: a40 :: a41 :: a42 :: a43 :: a44 :: a45 :: a46 :: a47 :: a48 :: a49 :: []) =
      [group_byte [a1, a2, a3, a4, a5, a6, a7, a8], group_byte [a9, a10, a11, a12, a13, a14, a15, a16], group_byte [a17, a18, a19, a20, a21, a22, a23, a24], group_byte [a25, a26, a27, a28, a29, a30, a31, a32], group_byte [a33, a34, a35, a36, a37, a38, a39, a40], group_byte [a41, a42, a43, a44, a45, a46, a47, a48], group_byte [a49] <<< 7] := rfl
  rw [hs]
  simp
  rcases eq_or_ne a49 1 with h49 | h49
  · subst h49; decide
  · simp [group_byte, h49]

theorem archive_execution_executions (habit : HabitExecution) :
    (archive_execution habit).executions = [] := rfl

theorem archive_execution_archived (habit : HabitExecution) :
    (archive_execution habit).archived_executions =
      habit.archived_executions ++ [base64url_encode (archive_bytes habit.executions)] := rfl

theorem update_habit_low (habit : HabitExecution) (v : Int) (m : Bool)
    (hlen : habit.executions.length < 49) :
    update_habit habit v m =
      { habit with
        executions := if habit.manual_update = false then habit.executions ++ [v]
                      else habit.executions,
        manual_update := m } := by
  have hc : ¬(MAX_EXECUTIONS ≤ habit.executions.length) := by unfold MAX_EXECUTIONS; omega
  simp only [update_habit, if_neg hc]
  by_cases hmu : habit.manual_update = false
  · simp [hmu]
  · simp [hmu]

theorem update_habit_full (habit : HabitExecution) (v : Int) (m : Bool)
    (hlen : 49 ≤ habit.executions.length) :
    update_habit habit v m =
      { habit with
        executions := if habit.manual_update = false then [v] else [],
        archived_executions :=
          habit.archived_executions ++ [base64url_encode (archive_bytes habit.executions)],
        manual_update := m } := by
  have hc : MAX_EXECUTIONS ≤ habit.executions.length := by unfold MAX_EXECUTIONS; omega
  simp only [update_habit, if_pos hc]
  by_cases hmu : habit.manual_update = false
  · simp [archive_execution, hmu]
  · simp [archive_execution, hmu]

theorem update_habit_window_le (habit : HabitExecution) (v : Int) (m : Bool)
    (hle : habit.executions.length ≤ 49) :
    (update_habit habit v m).executions.length ≤ 49 := by
  rcases Nat.lt_or_ge habit.executions.length 49 with h | h
  · rw [update_habit_low habit v m h]
    split <;> simp <;> omega
  · rw [update_habit_full habit v m h]
    split <;> simp

theorem applyUpdates_window_le (habit : HabitExecution) (ops : List (Int × Bool))
    (hle : habit.executions.length ≤ 49) :
    (applyUpdates habit ops).executions.length ≤ 49 := by
  induction ops generalizing habit with
  | nil => simpa [applyUpdates] using hle
  | cons p rest ih =>
      simp only [applyUpdates, List.foldl_cons] at *
      exact ih _ (update_habit_window_le _ _ _ hle)

theorem update_habit_name (habit : HabitExecution) (v : Int) (m : Bool) :
    (update_habit habit v m).name = habit.name := by
  simp only [update_habit]
  split <;> split <;> rfl

theorem update_execution_not_found (habits : List HabitExecution) (name : String)
    (v : Int) (m : Bool) (h : ∀ x ∈ habits, x.name ≠ name) :
    update_execution habits name v m = (habits, Except.error "Habit  not found") := by
  induction habits with
  | nil => rfl
  | cons a rest ih =>
      simp only [update_execution]
      rw [if_neg (Ne.symm (h a (by simp)))]
      rw [ih (fun x hx => h x (by simp [hx]))]

theorem update_execution_found (pre : List HabitExecution) (habit : HabitExecution)
    (post : List HabitExecution) (name : String) (v : Int) (m : Bool)
    (hpre : ∀ x ∈ pre, x.name ≠ name) (hname : habit.name = name) :
    update_execution (pre ++ habit :: post) name v m =
      (pre ++ update_habit habit v m :: post, Except.ok name) := by
  induction pre with
  | nil =>
      simp only [List.nil_append, update_execution]
      rw [if_pos hname.symm]
  | cons a rest ih =>
      simp only [List.cons_append, update_execution, List.append_eq]
      rw [if_neg (Ne.symm (hpre a (by simp)))]
      rw [ih (fun x hx => hpre x (by simp [hx]))]

theorem displayGo_length (habit : HabitExecution) :
    ∀ (fuel x : Nat) (dt : Bool), (displayGo habit x fuel dt).length = fuel := by
  intro fuel
  induction fuel with
  | zero => intro x dt; rfl
  | succ n ih =>
      intro x dt
      simp only [displayGo]
      split
      · split <;> simp [ih]
      · split <;> simp [ih]

theorem displayGo_getD (habit : HabitExecution) (dflt : String × String × String) :
    ∀ (fuel x : Nat) (dt : Bool) (j : Nat), j < fuel →
    (dt = true ↔ ¬(habit.manual_update = false ∧ habit.executions.length < x)) →
    (displayGo habit x fuel dt).getD j dflt = displayExpected habit (x + j) := by
  intro fuel
  induction fuel with
  | zero => intro x dt j hj; omega
  | succ n ih =>
      intro x dt j hj hdt
      simp only [displayGo]
      by_cases hx : habit.executions.length ≤ x
      · rw [if_pos hx]
        by_cases hc : dt = true ∧ habit.manual_update = false
        · rw [if_pos hc]
          have hxe : x = habit.executions.length := by
            have hnlt : ¬(habit.executions.length < x) := fun hlt => (hdt.mp hc.1) ⟨hc.2, hlt⟩
            omega
          cases j with
          | zero =>
              simp only [List.getD_cons_zero, displayExpected]
              rw [if_neg (by omega)]
              rw [if_pos ⟨hc.2, by omega⟩]
          | succ k =>
              simp only [List.getD_cons_succ]
              rw [ih (x + 1) false k (by omega)
                  (by simp; exact ⟨hc.2, by omega⟩)]
              have : x + 1 + k = x + (k + 1) := by omega
              rw [this]
        · rw [if_neg hc]
          cases j with
          | zero =>
              simp only [List.getD_cons_zero, displayExpected]
              rw [if_neg (by omega)]
              rw [if_neg ?hne]
              case hne =>
                rintro ⟨hman, hxe⟩
                have hdtf : dt = false := by
                  cases dt
                  · rfl
                  · exact absurd ⟨rfl, hman⟩ hc
                rw [hdtf] at hdt
                simp at hdt
                omega
          | succ k =>
              simp only [List.getD_cons_succ]
              rw [ih (x + 1) dt k (by omega) ?hinv]
              case hinv =>
                constructor
                · intro hdtt
                  have hman : ¬(habit.manual_update = false) := fun hm => hc ⟨hdtt, hm⟩
                  rintro ⟨hm, _⟩
                  exact hman hm
                · intro hnot
                  cases dt
                  · exfalso
                    have := hdt.symm
                    simp at this
                    exact hnot ⟨this.1, by omega⟩
                  · rfl
              have : x + 1 + k = x + (k + 1) := by omega
              rw [this]
      · rw [if_neg hx]
        cases j with
        | zero =>
            split
            · simp only [List.getD_cons_zero, displayExpected]
              rw [if_pos (by omega)]
              rw [if_pos (by assumption)]
            · simp only [List.getD_cons_zero, displayExpected]
              rw [if_pos (by omega)]
              rw [if_neg (by assumption)]
        | succ k =>
            have hinv : dt = true ↔
                ¬(habit.manual_update = false ∧ habit.executions.length < x + 1) := by
              constructor
              · intro hdtt
                rintro ⟨hm, hlt⟩
                exact (hdt.mp hdtt) ⟨hm, by omega⟩
              · intro hnot
                cases dt
                · exfalso
                  have := hdt.symm
                  simp at this
                  omega
                · rfl
            split
            · simp only [List.getD_cons_succ]
              rw [ih (x + 1) dt k (by omega) hinv]
              have : x + 1 + k = x + (k + 1) := by omega
              rw [this]
            · simp only [List.getD_cons_succ]
              rw [ih (x + 1) dt k (by omega) hinv]
              have : x + 1 + k = x + (k + 1) := by omega
              rw [this]

theorem archiveFold_len (w : List Int) :
    ∀ (i : Nat) (arr : List Nat) (b : Nat), 1 ≤ i →
    ((List.enumFrom i w).foldl archiveStep (arr, b)).1.length =
      arr.length + (i + w.length - 1) / 8 - (i - 1) / 8 := by
  induction w with
  | nil =>
      intro i arr b hi
      simp only [List.enumFrom, List.foldl, List.length_nil]
      omega
  | cons v rest ih =>
      intro i arr b hi
      rw [foldl_enumFrom_cons]
      by_cases hp : i ≠ 0 ∧ i % 8 = 0
      · rw [archiveStep_push i hp.1 hp.2]
        rw [ih (i + 1) _ _ (by omega)]
        simp only [List.length_append, List.length_cons, List.length_nil]
        have h8 : i % 8 = 0 := hp.2
        omega
      · rw [archiveStep_acc i hp]
        rw [ih (i + 1) _ _ (by omega)]
        simp only [List.length_cons]
        have h8 : ¬(i % 8 = 0) := by
          intro h
          exact hp ⟨by omega, h⟩
        omega

theorem archive_bytes_length (w : List Int) :
    (archive_bytes w).length = (w.length - 1) / 8 + 1 := by
  cases w with
  | nil => rfl
  | cons v rest =>
      simp only [archive_bytes, archiveFold, List.length_append]
      rw [enum_eq_enumFrom, foldl_enumFrom_cons]
      rw [archiveStep_acc 0 (by omega)]
      rw [archiveFold_len rest 1 _ _ (by omega)]
      simp only [List.length_nil, List.length_cons]
      omega

theorem archive_test_vector :
    base64url_encode (archive_bytes ([1, 1, -1, 0, 0, 0, 0, 1, 1] ++
      List.replicate 38 0 ++ [1, 1])) = "wYAAAAABgA" := by decide

/-- C1: starting from a window of length at most WINDOW_SIZE (49), no sequence of
updates ever grows the window past 49; an update that finds the window at 49
appends exactly one archive token and resets the window to empty within that same
operation (the new value, if not suppressed, starts the fresh window); an update
on a shorter window appends no archive token. -/
theorem update_window_never_exceeds_and_archives_once :
    (∀ (habit : HabitExecution) (ops : List (Int × Bool)),
      habit.executions.length ≤ 49 →
      (applyUpdates habit ops).executions.length ≤ 49) ∧
    (∀ (habit : HabitExecution) (v : Int) (m : Bool),
      habit.executions.length = 49 →
      (update_habit habit v m).archived_executions =
        habit.archived_executions ++ [base64url_encode (archive_bytes habit.executions)] ∧
      (update_habit habit v m).executions =
        (if habit.manual_update = false then [v] else [])) ∧
    (∀ (habit : HabitExecution) (v : Int) (m : Bool),
      habit.executions.length < 49 →
      (update_habit habit v m).archived_executions = habit.archived_executions) := by
  refine ⟨applyUpdates_window_le, fun habit v m h49 => ?_, fun habit v m hlt => ?_⟩
  · rw [update_habit_full habit v m (by omega)]
    exact ⟨rfl, rfl⟩
  · rw [update_habit_low habit v m hlt]

theorem update_window_never_exceeds_and_archives_once_witness :
    (applyUpdates (HabitExecution.new "Test") [(-1, false), (1, true)]).executions.length ≤ 49 ∧
    (update_habit ⟨"T", List.replicate 49 0, false, []⟩ 1 false).archived_executions =
      [] ++ [base64url_encode (archive_bytes (List.replicate 49 0))] ∧
    (update_habit ⟨"T", [], false, []⟩ (-1) false).archived_executions = [] :=
  ⟨update_window_never_exceeds_and_archives_once.1 _ _ (by decide),
   (update_window_never_exceeds_and_archives_once.2.1 ⟨"T", List.replicate 49 0, false, []⟩ 1
      false (by simp)).1,
   update_window_never_exceeds_and_archives_once.2.2 ⟨"T", [], false, []⟩ (-1) false (by decide)⟩

/-- C2 counterexample: for a record whose window is already full (49 entries) and whose
manual_flag is true, the mechanical update archives and resets the window, so the
window length changes from 49 to 0 — the claim fails without a "window not full"
restriction. -/
theorem mechanical_update_on_full_window_changes_length :
    (update_habit ⟨"T", List.replicate 49 (-1), true, []⟩ (-1) false).executions.length ≠
      (⟨"T", List.replicate 49 (-1), true, []⟩ : HabitExecution).executions.length ∧
    (update_habit ⟨"T", List.replicate 49 (-1), true, []⟩ (-1) false).manual_update = false := by
  decide

/-- C2 (amended): for every day-value v ∈ \x7b-1,0,1\x7d, applying the update with
is_manual=false to a record whose manual_flag is true and whose rolling window is
not yet full (length < 49) leaves the window length unchanged and sets
manual_flag to false. -/
theorem mechanical_update_clears_flag_keeps_window (habit : HabitExecution) (v : Int)
    (hv : v = -1 ∨ v = 0 ∨ v = 1) (hm : habit.manual_update = true)
    (hlen : habit.executions.length < 49) :
    (update_habit habit v false).executions.length = habit.executions.length ∧
    (update_habit habit v false).manual_update = false := by
  rw [update_habit_low habit v false hlen]
  constructor <;> simp [hm]

theorem mechanical_update_clears_flag_keeps_window_witness :
    (update_habit ⟨"T", [0], true, []⟩ (-1) false).executions.length =
      (⟨"T", [0], true, []⟩ : HabitExecution).executions.length ∧
    (update_habit ⟨"T", [0], true, []⟩ (-1) false).manual_update = false :=
  mechanical_update_clears_flag_keeps_window ⟨"T", [0], true, []⟩ (-1) (Or.inl rfl) rfl
    (by decide)

/-- C3: updating a record whose window holds exactly 49 values (manual_flag false)
with value 1 appends exactly one token — the base64url encoding of the bit-packed
bitmap of the prior 49 values — and leaves the window equal to [1]. -/
theorem full_window_update_appends_packed_token (habit : HabitExecution)
    (h49 : habit.executions.length = 49) (hm : habit.manual_update = false) :
    (update_habit habit 1 false).archived_executions =
      habit.archived_executions ++ [base64url_encode (spec_pack habit.executions)] ∧
    (update_habit habit 1 false).executions = [1] := by
  rw [update_habit_full habit 1 false (by omega)]
  rw [archive_bytes_eq_spec_pack habit.executions h49]
  constructor
  · rfl
  · simp [hm]

theorem full_window_update_appends_packed_token_witness :
    (update_habit ⟨"Test", testWindow, false, []⟩ 1 false).archived_executions =
      [] ++ [base64url_encode (spec_pack testWindow)] ∧
    (update_habit ⟨"Test", testWindow, false, []⟩ 1 false).executions = [1] :=
  full_window_update_appends_packed_token ⟨"Test", testWindow, false, []⟩ (by decide) rfl

/-- C4 counterexample: the not-found error does not identify the missing name — it is
the fixed string "Habit  not found", identical for the distinct missing names "X"
and "Y" (the collection is indeed left unchanged). -/
theorem missing_name_error_is_constant :
    update_execution [HabitExecution.new "Test"] "X" 1 false =
      ([HabitExecution.new "Test"], Except.error "Habit  not found") ∧
    (update_execution [HabitExecution.new "Test"] "Y" 1 false).2 =
      (update_execution [HabitExecution.new "Test"] "X" 1 false).2 := by
  constructor <;> rfl

/-- C4 (amended): for every collection and every name matching no record (exact,
case-sensitive), the update fails with the fixed not-found error (which does not
carry the missing name) and the collection is left completely unchanged. -/
theorem missing_name_leaves_collection_unchanged (habits : List HabitExecution)
    (name : String) (v : Int) (m : Bool) (h : ∀ x ∈ habits, x.name ≠ name) :
    update_execution habits name v m = (habits, Except.error "Habit  not found") :=
  update_execution_not_found habits name v m h

theorem missing_name_leaves_collection_unchanged_witness :
    update_execution [HabitExecution.new "Meditation"] "Coding" (-1) false =
      ([HabitExecution.new "Meditation"], Except.error "Habit  not found") :=
  missing_name_leaves_collection_unchanged [HabitExecution.new "Meditation"] "Coding" (-1)
    false (by decide)

/-- C5: on a window of exactly 49 day-values, the archive operation produces exactly
the bytes described by the spec — 6 groups of 8 plus 1 remaining value, each
group's byte built by left-shifting and setting the low bit exactly when the value
is 1 (-1 and 0 both give bit 0), the final partial group left-aligned by
8 - group-size bits — 7 bytes in all, and appends their base64url encoding to
archive_list. -/
theorem archive_matches_spec_bit_packing (habit : HabitExecution)
    (h49 : habit.executions.length = 49) :
    archive_bytes habit.executions = spec_pack habit.executions ∧
    (spec_pack habit.executions).length = 7 ∧
    (archive_execution habit).archived_executions =
      habit.archived_executions ++ [base64url_encode (spec_pack habit.executions)] := by
  refine ⟨archive_bytes_eq_spec_pack _ h49, rfl, ?_⟩
  rw [archive_execution_archived, archive_bytes_eq_spec_pack _ h49]

theorem archive_matches_spec_bit_packing_witness :
    archive_bytes (List.replicate 49 0) = spec_pack (List.replicate 49 0) ∧
    (spec_pack (List.replicate 49 0)).length = 7 ∧
    (archive_execution ⟨"W", List.replicate 49 0, false, []⟩).archived_executions =
      [] ++ [base64url_encode (spec_pack (List.replicate 49 0))] :=
  archive_matches_spec_bit_packing ⟨"W", List.replicate 49 0, false, []⟩ (by decide)

/-- C6: the display derivation yields exactly 49 symbols; below the window length the
symbol is the done marker (X/green) exactly when the stored value is 1 and the
not-done marker (O/red) otherwise; at or above the window length the today marker
(T/orange) appears exactly at the first such index when manual_flag is false and
never when it is true, with unfilled markers (./blue) everywhere else. -/
theorem display_chars_characterization (habit : HabitExecution) :
    (map_executions_to_display_chars habit).length = 49 ∧
    ∀ i : Nat, i < 49 →
      (map_executions_to_display_chars habit).getD i (get_string_with_color "." "blue" "") =
        displayExpected habit i := by
  constructor
  · exact displayGo_length habit 49 0 true
  · intro i hi
    have h := displayGo_getD habit (get_string_with_color "." "blue" "") 49 0 true i hi
      (by simp)
    simpa using h

theorem display_chars_characterization_witness :
    (map_executions_to_display_chars ⟨"T", [1, 0], false, []⟩).length = 49 ∧
    (map_executions_to_display_chars ⟨"T", [1, 0], false, []⟩).getD 2
        (get_string_with_color "." "blue" "") =
      displayExpected ⟨"T", [1, 0], false, []⟩ 2 :=
  ⟨(display_chars_characterization _).1, (display_chars_characterization _).2 2 (by decide)⟩

/-- C7: archiving the all-done window (49 ones) yields one token whose base64url
decoding is six 0xFF bytes followed by 0x80 — every bit 1 except the 7 trailing
alignment padding bits of the final partial byte. -/
theorem all_done_window_roundtrip :
    (archive_execution ⟨"AllDone", List.replicate 49 1, false, []⟩).archived_executions.map
        (fun t => base64url_decode t) =
      [[255, 255, 255, 255, 255, 255, 128]] := by decide

/-- C8: from an empty window with manual_flag=true: a mechanical -1 update keeps
length 0 and clears the flag; a manual 1 update then stores [1] and sets the flag;
a further mechanical -1 update keeps length 1 and clears the flag. -/
theorem manual_mechanical_scenario :
    (update_habit ⟨"Test", [], true, []⟩ (-1) false).executions.length = 0 ∧
    (update_habit ⟨"Test", [], true, []⟩ (-1) false).manual_update = false ∧
    (update_habit (update_habit ⟨"Test", [], true, []⟩ (-1) false) 1 true).executions = [1] ∧
    (update_habit (update_habit ⟨"Test", [], true, []⟩ (-1) false) 1 true).manual_update
      = true ∧
    (update_habit (update_habit (update_habit ⟨"Test", [], true, []⟩ (-1) false) 1 true)
        (-1) false).executions.length = 1 ∧
    (update_habit (update_habit (update_habit ⟨"Test", [], true, []⟩ (-1) false) 1 true)
        (-1) false).manual_update = false := by
  decide

/-- C9: the collection-level update rewrites only the first record whose name matches:
all records before it (non-matching) and after it are returned unchanged, and the
updated record keeps its name. -/
theorem update_execution_frame_property (pre : List HabitExecution) (habit : HabitExecution)
    (post : List HabitExecution) (name : String) (v : Int) (m : Bool)
    (hpre : ∀ x ∈ pre, x.name ≠ name) (hname : habit.name = name) :
    update_execution (pre ++ habit :: post) name v m =
      (pre ++ update_habit habit v m :: post, Except.ok name) ∧
    (update_habit habit v m).name = habit.name :=
  ⟨update_execution_found pre habit post name v m hpre hname, update_habit_name habit v m⟩

theorem update_execution_frame_property_witness :
    update_execution [HabitExecution.new "A", HabitExecution.new "B", HabitExecution.new "C"]
        "B" 1 true =
      ([HabitExecution.new "A", update_habit (HabitExecution.new "B") 1 true,
        HabitExecution.new "C"], Except.ok "B") ∧
    (update_habit (HabitExecution.new "B") 1 true).name = (HabitExecution.new "B").name :=
  update_execution_frame_property [HabitExecution.new "A"] (HabitExecution.new "B")
    [HabitExecution.new "C"] "B" 1 true (by decide) rfl

/-- C10: the archive operation is total over windows of every length: it always
appends exactly one token (never fails); the packed byte count is
(length-1)/8 + 1; the final accumulator is always shifted left by exactly 7 bits
(* 128 mod 256) regardless of the final group's size — e.g. a 2-value window
packs to [128], not to a 6-bit-shifted [192]; the empty window packs to the
single zero byte, so its token encodes [0]. -/
theorem archive_execution_total (habit : HabitExecution) :
    (archive_execution habit).archived_executions =
      habit.archived_executions ++ [base64url_encode (archive_bytes habit.executions)] ∧
    (archive_bytes habit.executions).length = (habit.executions.length - 1) / 8 + 1 ∧
    archive_bytes habit.executions =
      (archiveFold habit.executions).1 ++ [(archiveFold habit.executions).2 * 128 % 256] ∧
    archive_bytes [1, 1] = [128] ∧
    (habit.executions = [] →
      (archive_execution habit).archived_executions =
        habit.archived_executions ++ [base64url_encode [0]]) := by
  refine ⟨rfl, archive_bytes_length _, rfl, by decide, fun he => ?_⟩
  rw [archive_execution_archived, he]
  rfl

theorem archive_execution_total_witness :
    (archive_execution (HabitExecution.new "E")).archived_executions =
      [] ++ [base64url_encode (archive_bytes ([] : List Int))] ∧
    (archive_execution (HabitExecution.new "E")).archived_executions =
      [] ++ [base64url_encode [0]] :=
  ⟨(archive_execution_total (HabitExecution.new "E")).1,
   (archive_execution_total (HabitExecution.new "E")).2.2.2.2 rfl⟩
